import Mathlib

/-!
Verification of the raster-to-vector extraction pipeline of
`recreate_kolam/main.py` (skeleton topology classification, breadth-first
path tracing, contour deduplication, Ramer–Douglas–Peucker simplification,
spline smoothing with moving-average fallback, and the request-level error
handling of the `/convert` endpoint).

The Python functions are embedded shallowly:
* pixel grids become a width/height pair plus a total pixel function
  (`Grid.pix x y` models `skel[y, x]`);
* integer pixel coordinates become `ℤ × ℤ`, floating coordinates `ℚ × ℚ`
  (all coordinate arithmetic performed by the source is exact on the
  values that occur, so `ℚ` is a faithful carrier);
* the numpy dtype of a path array (integer vs floating) is tracked by an
  explicit `isFloat` flag;
* third-party primitives that the source calls but whose internals are
  outside the repository (`cv2.bilateralFilter`/`adaptiveThreshold`
  preprocessing chain, `skimage.morphology.thin`,
  `skimage.measure.find_contours`, `scipy.interpolate.splprep`) are taken
  as parameters, so every theorem quantifies over their behaviour;
  `cv2.filter2D` (with its default reflected border) and
  `cv2.approxPolyDP` (Ramer–Douglas–Peucker) are modelled concretely.
-/

namespace Aruvi

/-- Integer pixel coordinate `(x, y)`, as the Python code orders them. -/
abbrev Pt : Type := ℤ × ℤ

/-- Floating-point coordinate `(x, y)`; exact rationals model the float
values produced by the source (they are all exactly representable). -/
abbrev QPt : Type := ℚ × ℚ

/-- A pixel grid: `pix x y` models `img[y, x]`, total, `0` outside the
stored extent (numpy indexing with the in-bounds guards the source uses
never reads outside). -/
structure Grid where
  w : ℕ
  h : ℕ
  pix : ℤ → ℤ → ℕ

/-- The 8-neighbourhood offsets, in exactly the order the `directions`
list of `trace_path_from_point` enumerates them. -/
def directions : List Pt :=
  [(-1, -1), (0, -1), (1, -1), (-1, 0), (1, 0), (-1, 1), (0, 1), (1, 1)]

/-- The finite set of in-bounds coordinates of a grid, used as the
termination measure of the breadth-first trace. -/
def gridFin (g : Grid) : Finset Pt :=
  Finset.Icc ((0 : ℤ), (0 : ℤ)) (((g.w : ℤ) - 1, (g.h : ℤ) - 1))

lemma mem_gridFin {g : Grid} {p : Pt} :
    p ∈ gridFin g ↔ 0 ≤ p.1 ∧ p.1 < (g.w : ℤ) ∧ 0 ≤ p.2 ∧ p.2 < (g.h : ℤ) := by
  cases p with
  | mk x y =>
    simp only [gridFin, Finset.mem_Icc, Prod.mk_le_mk]
    omega

/-- Neighbour scan of one breadth-first step (`main.py` lines 129–134):
the in-bounds foreground 8-neighbours of `q` not yet visited, in
`directions` order; `visited2` already contains `q` itself, as in the
source. -/
def traceNbrs (g : Grid) (q : Pt) (visited2 : Finset Pt) : List Pt :=
  directions.filterMap fun d =>
    let n : Pt := (q.1 + d.1, q.2 + d.2)
    if 0 ≤ n.1 ∧ n.1 < (g.w : ℤ) ∧ 0 ≤ n.2 ∧ n.2 < (g.h : ℤ) ∧
        0 < g.pix n.1 n.2 ∧ n ∉ visited2 then some n else none

/-- The breadth-first work loop of `trace_path_from_point`
(`main.py` lines 117–134), written with explicit fuel so that it is
computable by kernel reduction: pop the front of the queue, skip it when
it is already visited, out of bounds or background, otherwise mark it
visited, append it to the path and enqueue its unvisited in-bounds
foreground 8-neighbours at the back of the queue.  `traceFuel` below
always suffices, so the fuel never runs out on the calls the pipeline
makes (`tracePathGo_congr` and the step lemmas `tracePath_nil`,
`tracePath_skip`, `tracePath_visit` make this precise). -/
def tracePathGo (g : Grid) : ℕ → List Pt → Finset Pt → List Pt → List Pt × Finset Pt
  | _, [], visited, path => (path, visited)
  | 0, _ :: _, visited, path => (path, visited)
  | fuel + 1, q :: rest, visited, path =>
    if q ∈ visited ∨ q.1 < 0 ∨ q.2 < 0 ∨ (g.w : ℤ) ≤ q.1 ∨ (g.h : ℤ) ≤ q.2 then
      tracePathGo g fuel rest visited path
    else if g.pix q.1 q.2 = 0 then
      tracePathGo g fuel rest visited path
    else
      tracePathGo g fuel (rest ++ traceNbrs g q (insert q visited))
        (insert q visited) (path ++ [q])

/-- Fuel that dominates the number of loop iterations: one per queue
entry, and each of the at most `|gridFin g|` visits enqueues at most 8
new entries. -/
def traceFuel (g : Grid) (queue : List Pt) (visited : Finset Pt) : ℕ :=
  queue.length + 8 * (gridFin g \ visited).card

/-- The breadth-first work loop at its sufficient fuel. -/
def tracePath (g : Grid) (queue : List Pt) (visited : Finset Pt) (path : List Pt) :
    List Pt × Finset Pt :=
  tracePathGo g (traceFuel g queue visited) queue visited path

lemma tracePathGo_nil (g : Grid) (f : ℕ) (v : Finset Pt) (p : List Pt) :
    tracePathGo g f [] v p = (p, v) := by
  cases f <;> rfl

lemma traceNbrs_length_le (g : Grid) (q : Pt) (v : Finset Pt) :
    (traceNbrs g q v).length ≤ 8 :=
  le_trans (List.length_filterMap_le _ _) (by rfl)

lemma sdiff_insert_grid {g : Grid} {q : Pt} {v : Finset Pt} :
    gridFin g \ insert q v = (gridFin g \ v).erase q := by
  ext a
  simp only [Finset.mem_sdiff, Finset.mem_insert, Finset.mem_erase]
  tauto

lemma tracePathGo_congr (g : Grid) :
    ∀ (f1 f2 : ℕ) (queue : List Pt) (v : Finset Pt) (p : List Pt),
      traceFuel g queue v ≤ f1 → traceFuel g queue v ≤ f2 →
      tracePathGo g f1 queue v p = tracePathGo g f2 queue v p := by
  intro f1
  induction f1 with
  | zero =>
    intro f2 queue v p h1 h2
    cases queue with
    | nil => rw [tracePathGo_nil, tracePathGo_nil]
    | cons q rest =>
      exfalso
      simp only [traceFuel, List.length_cons] at h1
      omega
  | succ f ih =>
    intro f2 queue v p h1 h2
    cases queue with
    | nil => rw [tracePathGo_nil, tracePathGo_nil]
    | cons q rest =>
      obtain ⟨f2p, rfl⟩ : ∃ k, f2 = k + 1 := by
        cases f2 with
        | zero =>
          exfalso
          simp only [traceFuel, List.length_cons] at h2
          omega
        | succ k => exact ⟨k, rfl⟩
      simp only [traceFuel, List.length_cons] at h1 h2
      rw [tracePathGo, tracePathGo]
      by_cases hq : q ∈ v ∨ q.1 < 0 ∨ q.2 < 0 ∨ (g.w : ℤ) ≤ q.1 ∨ (g.h : ℤ) ≤ q.2
      · rw [if_pos hq, if_pos hq]
        exact ih f2p rest v p (by simp only [traceFuel]; omega)
          (by simp only [traceFuel]; omega)
      · rw [if_neg hq, if_neg hq]
        by_cases hpix : g.pix q.1 q.2 = 0
        · rw [if_pos hpix, if_pos hpix]
          exact ih f2p rest v p (by simp only [traceFuel]; omega)
            (by simp only [traceFuel]; omega)
        · rw [if_neg hpix, if_neg hpix]
          push_neg at hq
          have hin : q ∈ gridFin g := mem_gridFin.mpr
            ⟨hq.2.1, hq.2.2.2.1, hq.2.2.1, hq.2.2.2.2⟩
          have hcard : (gridFin g \ insert q v).card + 1 = (gridFin g \ v).card := by
            rw [sdiff_insert_grid]
            exact Finset.card_erase_add_one (Finset.mem_sdiff.mpr ⟨hin, hq.1⟩)
          have hnb : (traceNbrs g q (insert q v)).length ≤ 8 := traceNbrs_length_le g q _
          refine ih f2p _ _ _ ?_ ?_ <;>
            simp only [traceFuel, List.length_append] <;> omega

lemma tracePathGo_sound (g : Grid) :
    ∀ (fuel : ℕ) (queue : List Pt) (visited : Finset Pt) (path : List Pt),
      visited ⊆ (tracePathGo g fuel queue visited path).2 ∧
      ∃ d, (tracePathGo g fuel queue visited path).1 = path ++ d ∧
        ∀ a ∈ d, a ∉ visited ∧ a ∈ (tracePathGo g fuel queue visited path).2 ∧
          (0 ≤ a.1 ∧ a.1 < (g.w : ℤ) ∧ 0 ≤ a.2 ∧ a.2 < (g.h : ℤ)) ∧ g.pix a.1 a.2 ≠ 0 := by
  intro fuel
  induction fuel with
  | zero =>
    intro queue visited path
    cases queue <;>
      exact ⟨Finset.Subset.refl _, [], by simp [tracePathGo], by simp⟩
  | succ f ih =>
    intro queue visited path
    cases queue with
    | nil =>
      rw [tracePathGo_nil]
      exact ⟨Finset.Subset.refl _, [], by simp, by simp⟩
    | cons q rest =>
      rw [tracePathGo]
      by_cases hq : q ∈ visited ∨ q.1 < 0 ∨ q.2 < 0 ∨ (g.w : ℤ) ≤ q.1 ∨ (g.h : ℤ) ≤ q.2
      · rw [if_pos hq]
        exact ih rest visited path
      · rw [if_neg hq]
        by_cases hpix : g.pix q.1 q.2 = 0
        · rw [if_pos hpix]
          exact ih rest visited path
        · rw [if_neg hpix]
          obtain ⟨hsub, d, hd, hall⟩ :=
            ih (rest ++ traceNbrs g q (insert q visited)) (insert q visited) (path ++ [q])
          push_neg at hq
          refine ⟨(Finset.subset_insert q visited).trans hsub, q :: d, ?_, ?_⟩
          · rw [hd, List.append_assoc]
            rfl
          · intro a ha
            rcases List.mem_cons.mp ha with rfl | ha2
            · exact ⟨hq.1, hsub (Finset.mem_insert_self a visited),
                ⟨hq.2.1, hq.2.2.2.1, hq.2.2.1, hq.2.2.2.2⟩, hpix⟩
            · obtain ⟨h1, h2, h3, h4⟩ := hall a ha2
              exact ⟨fun hin => h1 (Finset.mem_insert_of_mem hin), h2, h3, h4⟩

lemma tracePath_sound (g : Grid) (queue : List Pt) (visited : Finset Pt) (path : List Pt) :
    visited ⊆ (tracePath g queue visited path).2 ∧
    ∃ d, (tracePath g queue visited path).1 = path ++ d ∧
      ∀ a ∈ d, a ∉ visited ∧ a ∈ (tracePath g queue visited path).2 ∧
        (0 ≤ a.1 ∧ a.1 < (g.w : ℤ) ∧ 0 ≤ a.2 ∧ a.2 < (g.h : ℤ)) ∧ g.pix a.1 a.2 ≠ 0 :=
  tracePathGo_sound g (traceFuel g queue visited) queue visited path

lemma tracePath_nil (g : Grid) (v : Finset Pt) (p : List Pt) :
    tracePath g [] v p = (p, v) :=
  tracePathGo_nil g _ v p

lemma tracePath_skip (g : Grid) {q : Pt} (rest : List Pt) (v : Finset Pt) (p : List Pt)
    (hv : q ∈ v ∨ q.1 < 0 ∨ q.2 < 0 ∨ (g.w : ℤ) ≤ q.1 ∨ (g.h : ℤ) ≤ q.2 ∨ g.pix q.1 q.2 = 0) :
    tracePath g (q :: rest) v p = tracePath g rest v p := by
  unfold tracePath
  rw [show traceFuel g (q :: rest) v = traceFuel g rest v + 1 from by
    simp only [traceFuel, List.length_cons]; omega]
  rw [tracePathGo]
  by_cases h1 : q ∈ v ∨ q.1 < 0 ∨ q.2 < 0 ∨ (g.w : ℤ) ≤ q.1 ∨ (g.h : ℤ) ≤ q.2
  · rw [if_pos h1]
  · rw [if_neg h1, if_pos (by tauto)]

lemma tracePath_visit (g : Grid) {q : Pt} (rest : List Pt) (v : Finset Pt) (p : List Pt)
    (hv : ¬(q ∈ v ∨ q.1 < 0 ∨ q.2 < 0 ∨ (g.w : ℤ) ≤ q.1 ∨ (g.h : ℤ) ≤ q.2))
    (hpix : g.pix q.1 q.2 ≠ 0) :
    tracePath g (q :: rest) v p
      = tracePath g (rest ++ traceNbrs g q (insert q v)) (insert q v) (p ++ [q]) := by
  unfold tracePath
  rw [show traceFuel g (q :: rest) v = (rest.length + 8 * (gridFin g \ v).card) + 1 from by
    simp only [traceFuel, List.length_cons]; omega]
  rw [tracePathGo, if_neg hv, if_neg hpix]
  push_neg at hv
  have hin : q ∈ gridFin g := mem_gridFin.mpr ⟨hv.2.1, hv.2.2.2.1, hv.2.2.1, hv.2.2.2.2⟩
  have hcard : (gridFin g \ insert q v).card + 1 = (gridFin g \ v).card := by
    rw [sdiff_insert_grid]
    exact Finset.card_erase_add_one (Finset.mem_sdiff.mpr ⟨hin, hv.1⟩)
  have hnb : (traceNbrs g q (insert q v)).length ≤ 8 := traceNbrs_length_le g q _
  apply tracePathGo_congr <;>
    simp only [traceFuel, List.length_append] <;> omega

/-- The full breadth-first trace `trace_path_from_point` (`main.py`
lines 106–140): run the work loop from the single start point and return
the collected path only when it reaches `min_length` (default 10); the
updated visited set is returned in either case. -/
def trace_path_from_point (g : Grid) (start : Pt) (visited : Finset Pt)
    (min_length : ℕ := 10) : Option (List Pt) × Finset Pt :=
  if min_length ≤ (tracePath g [start] visited []).1.length then
    (some (tracePath g [start] visited []).1, (tracePath g [start] visited []).2)
  else (none, (tracePath g [start] visited []).2)

/-- Border index reflection of `cv2.filter2D`'s default border mode
(`BORDER_REFLECT_101`): an index one past either edge reads the pixel one
step inside the edge. Only offsets of magnitude 1 occur here. -/
def reflect101 (n : ℕ) (i : ℤ) : ℤ :=
  if i < 0 then -i else if (n : ℤ) ≤ i then 2 * (n : ℤ) - 2 - i else i

/-- Indicator of a foreground pixel of `skel_bin = (skel > 0)`. -/
def binPix (g : Grid) (x y : ℤ) : ℕ :=
  if 0 < g.pix x y then 1 else 0

/-- Value of `cv2.filter2D(skel_bin, -1, kernel)` at `(x, y)` for the
3×3 kernel with centre weight 10 and neighbour weight 1
(`find_endpoints_junctions`, `main.py` lines 86–94).  The convolution
reads out-of-bounds neighbours through the default reflected border.
The value is at most 18, so the `uint8` output never saturates. -/
def filterVal (g : Grid) (x y : ℤ) : ℕ :=
  10 * binPix g x y +
    (directions.map fun d =>
      binPix g (reflect101 g.w (x + d.1)) (reflect101 g.h (y + d.2))).sum

/-- All grid coordinates in the raster-scan (row-major) order in which
`np.where` reports matches; entries are already converted to `(x, y)`. -/
def rasterPoints (g : Grid) : List Pt :=
  (List.range g.h).flatMap fun (y : ℕ) => (List.range g.w).map fun (x : ℕ) => ((x : ℤ), (y : ℤ))

/-- The Topology Classifier `find_endpoints_junctions` (`main.py`
lines 83–104): endpoints are the pixels whose filter response is exactly
11, junctions those with response at least 13, each listed in raster
order as `(x, y)` pairs. -/
def find_endpoints_junctions (g : Grid) : List Pt × List Pt :=
  ((rasterPoints g).filter fun p => filterVal g p.1 p.2 == 11,
   (rasterPoints g).filter fun p => 13 ≤ filterVal g p.1 p.2)

/-- The seed loop of `extract_paths_from_skeleton` (`main.py`
lines 150–158): trace from each seed not already visited, threading one
visited set through all traces, and keep each returned (≥ 10 point)
path. -/
def traceSeedsLoop (g : Grid) (seeds : List Pt) (visited : Finset Pt)
    (paths : List (List Pt)) : List (List Pt) × Finset Pt :=
  match seeds with
  | [] => (paths, visited)
  | s :: rest =>
    if s ∈ visited then traceSeedsLoop g rest visited paths
    else
      traceSeedsLoop g rest (trace_path_from_point g s visited 10).2
        ((trace_path_from_point g s visited 10).1.elim paths fun p => paths ++ [p])

/-- The integer paths produced by the seed phase of
`extract_paths_from_skeleton`: endpoints followed by junctions feed the
seed loop with an initially empty visited set. -/
def extract_seed_paths (g : Grid) : List (List Pt) :=
  (traceSeedsLoop g
    ((find_endpoints_junctions g).1 ++ (find_endpoints_junctions g).2) ∅ []).1

/-- A path as the numpy arrays of the source carry it: its point list
together with whether its dtype is floating point. -/
structure NPath where
  pts : List QPt
  isFloat : Bool
  deriving DecidableEq, Repr

/-- Coercion of an integer pixel to the numeric value numpy equality
compares (Python `3 == 3.0`). -/
def toQ (p : Pt) : QPt := ((p.1 : ℚ), (p.2 : ℚ))

/-- Number of shared coordinates of two paths, the
`len(set(map(tuple, path)) & set(map(tuple, existing_path)))` of the
contour deduplication. -/
def sharedCount (p q : List QPt) : ℕ :=
  (p.toFinset ∩ q.toFinset).card

/-- The contour phase of `extract_paths_from_skeleton` (`main.py`
lines 160–175): each `skimage.measure.find_contours` contour of more
than 20 points is converted from `(row, col)` to `(x, y)` (a float
array) and appended unless it shares more than 5 coordinates with a path
already retained. -/
def contourStep (acc : List NPath) (contour : List QPt) : List NPath :=
  if 20 < contour.length then
    if acc.all fun ex =>
        decide (sharedCount (contour.map fun rc => (rc.2, rc.1)) ex.pts ≤ 5) then
      acc ++ [⟨contour.map fun rc => (rc.2, rc.1), true⟩]
    else acc
  else acc

/-- The fold of `contourStep` over all contours, starting from the
seed-phase paths. -/
def addContours (contours : List (List QPt)) (paths0 : List NPath) : List NPath :=
  contours.foldl contourStep paths0

/-- The seed-phase paths as they sit in the `paths` list: integer numpy
arrays. -/
def seedNPaths (g : Grid) : List NPath :=
  (extract_seed_paths g).map fun zp => ⟨zp.map toQ, false⟩

/-- `extract_paths_from_skeleton` (`main.py` lines 142–177): seed-traced
paths followed by the deduplicated long contours.  The contour list of
`skimage.measure.find_contours` is a parameter (library call). -/
def extract_paths_from_skeleton (g : Grid) (contours : List (List QPt)) : List NPath :=
  addContours contours (seedNPaths g)

end Aruvi

namespace Aruvi

lemma trace_path_from_point_eq2 (g : Grid) (s : Pt) (v : Finset Pt) (m : ℕ) :
    (trace_path_from_point g s v m).2 = (tracePath g [s] v []).2 := by
  unfold trace_path_from_point
  split <;> rfl

lemma trace_path_from_point_some {g : Grid} {s : Pt} {v : Finset Pt} {m : ℕ}
    {p : List Pt} (h : (trace_path_from_point g s v m).1 = some p) :
    p = (tracePath g [s] v []).1 ∧ m ≤ p.length := by
  unfold trace_path_from_point at h
  split at h
  · simp only [Option.some.injEq] at h
    subst h
    simp_all
  · simp at h

lemma traceSeedsLoop_sound (g : Grid) (seeds : List Pt) :
    ∀ (v : Finset Pt) (ps : List (List Pt)),
      (∀ p ∈ ps, 10 ≤ p.length) →
      (∀ p ∈ ps, ∀ a ∈ p, a ∈ v) →
      (∀ p ∈ ps, ∀ a ∈ p,
        (0 ≤ a.1 ∧ a.1 < (g.w : ℤ) ∧ 0 ≤ a.2 ∧ a.2 < (g.h : ℤ)) ∧ g.pix a.1 a.2 ≠ 0) →
      List.Pairwise (fun p q => ∀ a ∈ p, a ∉ q) ps →
      (∀ p ∈ (traceSeedsLoop g seeds v ps).1, 10 ≤ p.length) ∧
      (∀ p ∈ (traceSeedsLoop g seeds v ps).1, ∀ a ∈ p, a ∈ (traceSeedsLoop g seeds v ps).2) ∧
      (∀ p ∈ (traceSeedsLoop g seeds v ps).1, ∀ a ∈ p,
        (0 ≤ a.1 ∧ a.1 < (g.w : ℤ) ∧ 0 ≤ a.2 ∧ a.2 < (g.h : ℤ)) ∧ g.pix a.1 a.2 ≠ 0) ∧
      List.Pairwise (fun p q => ∀ a ∈ p, a ∉ q) (traceSeedsLoop g seeds v ps).1 := by
  induction seeds with
  | nil =>
    intro v ps h1 h2 h3 h4
    rw [traceSeedsLoop]
    exact ⟨h1, h2, h3, h4⟩
  | cons s rest ih =>
    intro v ps h1 h2 h3 h4
    rw [traceSeedsLoop]
    by_cases hs : s ∈ v
    · rw [if_pos hs]
      exact ih v ps h1 h2 h3 h4
    · rw [if_neg hs]
      have hv2 : (trace_path_from_point g s v 10).2 = (tracePath g [s] v []).2 :=
        trace_path_from_point_eq2 g s v 10
      obtain ⟨hsub, d, hd, hall⟩ := tracePath_sound g [s] v []
      rw [List.nil_append] at hd
      rcases hop : (trace_path_from_point g s v 10).1 with _ | p
      · simp only [Option.elim_none]
        refine ih _ ps h1 ?_ h3 h4
        intro q hq a ha
        rw [hv2]
        exact hsub (h2 q hq a ha)
      · simp only [Option.elim_some]
        obtain ⟨hp, hlen⟩ := trace_path_from_point_some hop
        have hpd : p = d := by rw [hp, hd]
        refine ih _ (ps ++ [p]) ?_ ?_ ?_ ?_
        · intro q hq
          rcases List.mem_append.mp hq with hq1 | hq2
          · exact h1 q hq1
          · rw [List.mem_singleton.mp hq2]
            exact hlen
        · intro q hq a ha
          rw [hv2]
          rcases List.mem_append.mp hq with hq1 | hq2
          · exact hsub (h2 q hq1 a ha)
          · rw [List.mem_singleton.mp hq2] at ha
            rw [hpd] at ha
            exact (hall a ha).2.1
        · intro q hq a ha
          rcases List.mem_append.mp hq with hq1 | hq2
          · exact h3 q hq1 a ha
          · rw [List.mem_singleton.mp hq2] at ha
            rw [hpd] at ha
            exact (hall a ha).2.2
        · rw [List.pairwise_append]
          refine ⟨h4, List.pairwise_singleton _ _, ?_⟩
          intro q hq q2 hq2
          rw [List.mem_singleton.mp hq2]
          intro a ha hap
          rw [hpd] at hap
          exact (hall a hap).1 (h2 q hq a ha)

end Aruvi

namespace Aruvi

lemma seed_paths_sound (g : Grid) :
    (∀ p ∈ extract_seed_paths g, 10 ≤ p.length) ∧
    (∀ p ∈ extract_seed_paths g, ∀ a ∈ p,
      (0 ≤ a.1 ∧ a.1 < (g.w : ℤ) ∧ 0 ≤ a.2 ∧ a.2 < (g.h : ℤ)) ∧ g.pix a.1 a.2 ≠ 0) ∧
    List.Pairwise (fun p q => ∀ a ∈ p, a ∉ q) (extract_seed_paths g) := by
  have h := traceSeedsLoop_sound g
    ((find_endpoints_junctions g).1 ++ (find_endpoints_junctions g).2) ∅ []
    (by simp) (by simp) (by simp) (by simp)
  exact ⟨h.1, h.2.2.1, h.2.2.2⟩

lemma toQ_injective : Function.Injective toQ := by
  intro a b hab
  obtain ⟨h1, h2⟩ := Prod.mk.injEq .. ▸ hab
  exact Prod.ext (by exact_mod_cast h1) (by exact_mod_cast h2)

lemma sharedCount_comm (p q : List QPt) : sharedCount p q = sharedCount q p := by
  unfold sharedCount
  rw [Finset.inter_comm]

lemma sharedCount_eq_zero {p q : List Pt} (h : ∀ a ∈ p, a ∉ q) :
    sharedCount (p.map toQ) (q.map toQ) = 0 := by
  unfold sharedCount
  rw [Finset.card_eq_zero, Finset.eq_empty_iff_forall_not_mem]
  intro a ha
  rw [Finset.mem_inter, List.mem_toFinset, List.mem_toFinset, List.mem_map, List.mem_map] at ha
  obtain ⟨⟨x, hx, hxa⟩, ⟨y, hy, hya⟩⟩ := ha
  have hxy : x = y := toQ_injective (hxa.trans hya.symm)
  exact h x hx (hxy ▸ hy)

lemma contourStep_mem {acc : List NPath} {c : List QPt} {p : NPath}
    (hp : p ∈ contourStep acc c) : p ∈ acc ∨ 20 < p.pts.length := by
  unfold contourStep at hp
  split at hp
  · split at hp
    · rcases List.mem_append.mp hp with h1 | h2
      · exact Or.inl h1
      · refine Or.inr ?_
        rw [List.mem_singleton.mp h2]
        simpa using by assumption
    · exact Or.inl hp
  · exact Or.inl hp

lemma contourStep_pairwise {acc : List NPath} {c : List QPt}
    (h : List.Pairwise (fun p q => sharedCount p.pts q.pts ≤ 5) acc) :
    List.Pairwise (fun p q => sharedCount p.pts q.pts ≤ 5) (contourStep acc c) := by
  unfold contourStep
  split
  · split
    · rw [List.pairwise_append]
      refine ⟨h, List.pairwise_singleton _ _, ?_⟩
      intro p hp p2 hp2
      rw [List.mem_singleton.mp hp2]
      rw [sharedCount_comm]
      exact of_decide_eq_true (List.all_eq_true.mp (by assumption) p hp)
    · exact h
  · exact h

lemma addContours_mem {cs : List (List QPt)} :
    ∀ {acc : List NPath} {p : NPath}, p ∈ addContours cs acc →
      p ∈ acc ∨ 20 < p.pts.length := by
  induction cs with
  | nil =>
    intro acc p hp
    exact Or.inl hp
  | cons c cs ih =>
    intro acc p hp
    rw [addContours, List.foldl_cons] at hp
    rcases ih hp with hmem | hlen
    · exact contourStep_mem hmem
    · exact Or.inr hlen

lemma addContours_pairwise {cs : List (List QPt)} :
    ∀ {acc : List NPath},
      List.Pairwise (fun p q => sharedCount p.pts q.pts ≤ 5) acc →
      List.Pairwise (fun p q => sharedCount p.pts q.pts ≤ 5) (addContours cs acc) := by
  induction cs with
  | nil =>
    intro acc h
    exact h
  | cons c cs ih =>
    intro acc h
    rw [addContours, List.foldl_cons]
    exact ih (contourStep_pairwise h)

end Aruvi

namespace Aruvi

/-- C10: any two distinct seed-traced raw paths have completely disjoint
pixel coordinate sets, because all seeds share one visited set and a
pixel already visited is never added to a later path; moreover every
point of a seed-traced path is an in-bounds foreground pixel of the
skeleton. -/
theorem c10_seed_paths_disjoint_on_skeleton (g : Grid) :
    List.Pairwise (fun p q => ∀ a ∈ p, a ∉ q) (extract_seed_paths g) ∧
    ∀ p ∈ extract_seed_paths g, ∀ a ∈ p,
      (0 ≤ a.1 ∧ a.1 < (g.w : ℤ) ∧ 0 ≤ a.2 ∧ a.2 < (g.h : ℤ)) ∧ g.pix a.1 a.2 ≠ 0 :=
  ⟨(seed_paths_sound g).2.2, (seed_paths_sound g).2.1⟩

/-- C3: every retained raw path has at least 10 points when it is one of
the seed-traced paths, and at least 20 points when it is not (i.e. when
the contour fallback produced it). -/
theorem c3_retained_path_min_length (g : Grid) (contours : List (List QPt))
    (p : NPath) (hp : p ∈ extract_paths_from_skeleton g contours) :
    (p ∈ seedNPaths g → 10 ≤ p.pts.length) ∧
    (p ∉ seedNPaths g → 20 ≤ p.pts.length) := by
  constructor
  · intro hseed
    rw [seedNPaths, List.mem_map] at hseed
    obtain ⟨zp, hzp, rfl⟩ := hseed
    simpa using (seed_paths_sound g).1 zp hzp
  · intro hnotseed
    rcases addContours_mem hp with hmem | hlen
    · exact absurd hmem hnotseed
    · omega

/-- C4: no two distinct raw paths retained by the Path Tracer share more
than 5 pixel coordinates (set intersection of coordinate sets): the seed
phase produces disjoint paths and every accepted contour path was checked
against all paths already retained. -/
theorem c4_retained_paths_share_at_most_five (g : Grid) (contours : List (List QPt)) :
    List.Pairwise (fun p q => sharedCount p.pts q.pts ≤ 5)
      (extract_paths_from_skeleton g contours) := by
  refine addContours_pairwise ?_
  rw [seedNPaths]
  refine List.Pairwise.map _ ?_ (seed_paths_sound g).2.2
  intro p q hdisj
  simp only
  rw [sharedCount_eq_zero hdisj]
  omega

end Aruvi

namespace Aruvi

/-- A 7×7 skeleton shaped like a plus sign: vertical arm `x = 3`,
horizontal arm `y = 3`.  Its centre region is reported as junctions and
the breadth-first trace started there covers all four arms. -/
def plusGrid : Grid :=
  ⟨7, 7, fun x y => if (x = 3 ∧ 0 ≤ y ∧ y ≤ 6) ∨ (y = 3 ∧ 0 ≤ x ∧ x ≤ 6) then 255 else 0⟩

/-- The single raw path the Path Tracer extracts from `plusGrid`,
in breadth-first expansion order. -/
def plusPath : List Pt :=
  [(3, 2), (3, 1), (2, 3), (3, 3), (4, 3), (3, 0), (1, 3), (3, 4),
   (5, 3), (0, 3), (3, 5), (6, 3), (3, 6)]

/-- Two pixels are 8-neighbours: distinct with Chebyshev distance 1.
Stated from the claim's words, to compare the traced order against. -/
def adjacent8 (a b : Pt) : Prop :=
  a ≠ b ∧ (a.1 - b.1).natAbs ≤ 1 ∧ (a.2 - b.2).natAbs ≤ 1

instance (a b : Pt) : Decidable (adjacent8 a b) :=
  inferInstanceAs (Decidable (a ≠ b ∧ (a.1 - b.1).natAbs ≤ 1 ∧ (a.2 - b.2).natAbs ≤ 1))

/-- The claim's notion of a curve-ordered path: each point after the
first is an 8-neighbour of the previous one. -/
def specCurveOrdered : List Pt → Prop
  | [] => True
  | [_] => True
  | a :: b :: rest => adjacent8 a b ∧ specCurveOrdered (b :: rest)

def specCurveOrderedDec : (p : List Pt) → Decidable (specCurveOrdered p)
  | [] => .isTrue trivial
  | [_] => .isTrue trivial
  | a :: b :: rest =>
    have : Decidable (specCurveOrdered (b :: rest)) := specCurveOrderedDec (b :: rest)
    inferInstanceAs (Decidable (adjacent8 a b ∧ specCurveOrdered (b :: rest)))

attribute [instance] specCurveOrderedDec

/-- C1: evaluation of the tracer on the failing input.  On the plus-shaped
skeleton the Path Tracer retains exactly one raw path — breadth-first
expansion order, covering all four branches of the junction instead of one
path per branch — and that path is not curve-ordered (for example the
consecutive points `(3, 1)` and `(2, 3)` are not 8-neighbours). -/
theorem c1_trace_from_seed_not_curve_ordered :
    extract_seed_paths plusGrid = [plusPath] ∧
    ¬ specCurveOrdered plusPath ∧ 10 ≤ plusPath.length :=
  ⟨by decide, by decide, by decide⟩

end Aruvi

namespace Aruvi

/-- Number of in-bounds foreground 8-neighbours of `(x, y)`.  Stated from
the claim's words (the glossary notion of endpoint/junction degree), to
compare the classifier against. -/
def specNeighborCount (g : Grid) (x y : ℤ) : ℕ :=
  ((directions.map fun d =>
    if 0 ≤ x + d.1 ∧ x + d.1 < (g.w : ℤ) ∧ 0 ≤ y + d.2 ∧ y + d.2 < (g.h : ℤ) ∧
        0 < g.pix (x + d.1) (y + d.2) then 1 else 0) : List ℕ).sum

/-- Raster-scan (row-major) strict order on coordinates. -/
def rasterLt (p q : Pt) : Prop :=
  p.2 < q.2 ∨ (p.2 = q.2 ∧ p.1 < q.1)

lemma reflect101_eq {n : ℕ} {i : ℤ} (h1 : 0 ≤ i) (h2 : i < (n : ℤ)) :
    reflect101 n i = i := by
  unfold reflect101
  rw [if_neg (by omega), if_neg (by omega)]

lemma binPix_le_one (g : Grid) (x y : ℤ) : binPix g x y ≤ 1 := by
  unfold binPix
  split <;> omega

lemma specNeighborCount_le_eight (g : Grid) (x y : ℤ) :
    specNeighborCount g x y ≤ 8 := by
  unfold specNeighborCount
  refine le_trans (List.sum_le_card_nsmul _ 1 ?_) (by simp [directions])
  intro b hb
  rw [List.mem_map] at hb
  obtain ⟨d, hd, rfl⟩ := hb
  split <;> omega

lemma filterVal_interior {g : Grid} {x y : ℤ}
    (hx1 : 1 ≤ x) (hx2 : x ≤ (g.w : ℤ) - 2) (hy1 : 1 ≤ y) (hy2 : y ≤ (g.h : ℤ) - 2) :
    filterVal g x y = 10 * binPix g x y + specNeighborCount g x y := by
  have hbin : ∀ a b : ℤ, 0 ≤ a → a < (g.w : ℤ) → 0 ≤ b → b < (g.h : ℤ) →
      (if 0 ≤ a ∧ a < (g.w : ℤ) ∧ 0 ≤ b ∧ b < (g.h : ℤ) ∧ 0 < g.pix a b then 1 else 0)
        = binPix g a b := by
    intro a b ha1 ha2 hb1 hb2
    unfold binPix
    by_cases hp : 0 < g.pix a b
    · rw [if_pos ⟨ha1, ha2, hb1, hb2, hp⟩, if_pos hp]
    · rw [if_neg (by tauto), if_neg hp]
  simp only [filterVal, specNeighborCount, directions, List.map_cons, List.map_nil,
    List.sum_cons, List.sum_nil]
  rw [reflect101_eq (by omega) (by omega), reflect101_eq (by omega) (by omega),
    reflect101_eq (by omega) (by omega), reflect101_eq (by omega) (by omega),
    reflect101_eq (by omega) (by omega), reflect101_eq (by omega) (by omega)]
  rw [hbin (x + -1) (y + -1) (by omega) (by omega) (by omega) (by omega),
    hbin (x + 0) (y + -1) (by omega) (by omega) (by omega) (by omega),
    hbin (x + 1) (y + -1) (by omega) (by omega) (by omega) (by omega),
    hbin (x + -1) (y + 0) (by omega) (by omega) (by omega) (by omega),
    hbin (x + 1) (y + 0) (by omega) (by omega) (by omega) (by omega),
    hbin (x + -1) (y + 1) (by omega) (by omega) (by omega) (by omega),
    hbin (x + 0) (y + 1) (by omega) (by omega) (by omega) (by omega),
    hbin (x + 1) (y + 1) (by omega) (by omega) (by omega) (by omega)]

lemma mem_rasterPoints {g : Grid} {p : Pt} :
    p ∈ rasterPoints g ↔
      0 ≤ p.1 ∧ p.1 < (g.w : ℤ) ∧ 0 ≤ p.2 ∧ p.2 < (g.h : ℤ) := by
  cases p with
  | mk px py =>
    simp only [rasterPoints, List.mem_flatMap, List.mem_map, List.mem_range, Prod.mk.injEq]
    constructor
    · rintro ⟨y, hy, x, hx, hxe, hye⟩
      rw [← hxe, ← hye]
      constructor
      · positivity
      refine ⟨by exact_mod_cast hx, by positivity, by exact_mod_cast hy⟩
    · rintro ⟨h1, h2, h3, h4⟩
      refine ⟨py.toNat, by omega, px.toNat, by omega, by omega, by omega⟩

lemma mem_endpoints_iff {g : Grid} {p : Pt} :
    p ∈ (find_endpoints_junctions g).1 ↔
      p ∈ rasterPoints g ∧ filterVal g p.1 p.2 = 11 := by
  simp [find_endpoints_junctions, List.mem_filter]

lemma mem_junctions_iff {g : Grid} {p : Pt} :
    p ∈ (find_endpoints_junctions g).2 ↔
      p ∈ rasterPoints g ∧ 13 ≤ filterVal g p.1 p.2 := by
  simp [find_endpoints_junctions, List.mem_filter]

lemma rasterPoints_pairwise (g : Grid) :
    List.Pairwise rasterLt (rasterPoints g) := by
  rw [rasterPoints, List.pairwise_flatMap]
  constructor
  · intro y hy
    rw [List.pairwise_map]
    refine List.Pairwise.imp ?_ (List.pairwise_lt_range g.w)
    intro a b hab
    refine Or.inr ⟨rfl, ?_⟩
    show (a : ℤ) < (b : ℤ)
    exact_mod_cast hab
  · refine List.Pairwise.imp ?_ (List.pairwise_lt_range g.h)
    intro y1 y2 hy a ha b hb
    rw [List.mem_map] at ha hb
    obtain ⟨x1, hx1, rfl⟩ := ha
    obtain ⟨x2, hx2, rfl⟩ := hb
    refine Or.inl ?_
    show (y1 : ℤ) < (y2 : ℤ)
    exact_mod_cast hy

end Aruvi

namespace Aruvi

/-- A 5×5 skeleton holding one horizontal line across row `y = 2`,
touching both vertical image borders. -/
def lineGrid5 : Grid :=
  ⟨5, 5, fun x y => if y = 2 ∧ 0 ≤ x ∧ x ≤ 4 then 255 else 0⟩

/-- C2 counterexample: on `lineGrid5` the pixel `(0, 2)` is foreground
with exactly one foreground 8-neighbour, yet the classifier does not
report it as an endpoint — `cv2.filter2D`'s reflected border counts the
neighbour `(1, 2)` twice, giving filter value 12 instead of 11. -/
theorem c2_border_endpoint_missed :
    0 < lineGrid5.pix 0 2 ∧ specNeighborCount lineGrid5 0 2 = 1 ∧
    filterVal lineGrid5 0 2 = 12 ∧
    (0, 2) ∉ (find_endpoints_junctions lineGrid5).1 := by
  refine ⟨by decide, by decide, by decide, by decide⟩

/-- C2 (amended): for every foreground pixel whose full 8-neighbourhood
lies inside the grid, membership of the endpoint list is equivalent to
having exactly one foreground 8-neighbour and membership of the junction
list to having at least three; both lists are in raster scan order.
(At image-border pixels the reflected convolution border can misclassify,
see the counterexample.) -/
theorem c2_classifier_interior_raster_order (g : Grid) :
    (∀ x y : ℤ, 1 ≤ x → x ≤ (g.w : ℤ) - 2 → 1 ≤ y → y ≤ (g.h : ℤ) - 2 →
      ((x, y) ∈ (find_endpoints_junctions g).1 ↔
        0 < g.pix x y ∧ specNeighborCount g x y = 1) ∧
      ((x, y) ∈ (find_endpoints_junctions g).2 ↔
        0 < g.pix x y ∧ 3 ≤ specNeighborCount g x y)) ∧
    List.Pairwise rasterLt (find_endpoints_junctions g).1 ∧
    List.Pairwise rasterLt (find_endpoints_junctions g).2 := by
  refine ⟨?_, (rasterPoints_pairwise g).filter _, (rasterPoints_pairwise g).filter _⟩
  intro x y hx1 hx2 hy1 hy2
  have hmem : (x, y) ∈ rasterPoints g :=
    mem_rasterPoints.mpr ⟨by omega, by omega, by omega, by omega⟩
  have hfv : filterVal g x y = 10 * binPix g x y + specNeighborCount g x y :=
    filterVal_interior hx1 hx2 hy1 hy2
  have hcle := specNeighborCount_le_eight g x y
  by_cases hp : 0 < g.pix x y
  · have hb : binPix g x y = 1 := by
      unfold binPix
      rw [if_pos hp]
    rw [hb] at hfv
    constructor
    · rw [mem_endpoints_iff]
      dsimp only
      constructor
      · rintro ⟨-, h11⟩
        exact ⟨hp, by omega⟩
      · rintro ⟨-, h1⟩
        exact ⟨hmem, by omega⟩
    · rw [mem_junctions_iff]
      dsimp only
      constructor
      · rintro ⟨-, h13⟩
        exact ⟨hp, by omega⟩
      · rintro ⟨-, h3⟩
        exact ⟨hmem, by omega⟩
  · have hb : binPix g x y = 0 := by
      unfold binPix
      rw [if_neg hp]
    rw [hb] at hfv
    constructor
    · rw [mem_endpoints_iff]
      dsimp only
      constructor
      · rintro ⟨-, h11⟩
        omega
      · rintro ⟨h, -⟩
        exact absurd h hp
    · rw [mem_junctions_iff]
      dsimp only
      constructor
      · rintro ⟨-, h13⟩
        omega
      · rintro ⟨h, -⟩
        exact absurd h hp

end Aruvi

namespace Aruvi

/-- Squared euclidean distance of two points. -/
def dist2 (a b : QPt) : ℚ :=
  (a.1 - b.1) * (a.1 - b.1) + (a.2 - b.2) * (a.2 - b.2)

/-- Squared distance from `p` to the line through `a` and `b` (to `a`
itself when the two coincide) — the deviation measure of the
Ramer–Douglas–Peucker algorithm behind `cv2.approxPolyDP`. -/
def perpDist2 (a b p : QPt) : ℚ :=
  if dist2 a b = 0 then dist2 a p
  else ((b.1 - a.1) * (p.2 - a.2) - (b.2 - a.2) * (p.1 - a.1))
    * ((b.1 - a.1) * (p.2 - a.2) - (b.2 - a.2) * (p.1 - a.1)) / dist2 a b

/-- Split a list at an element maximising `f` (the first such element):
returns the elements before it, the element, and the elements after. -/
def splitAtMax (f : QPt → ℚ) : List QPt → Option (List QPt × QPt × List QPt)
  | [] => none
  | x :: xs =>
    match splitAtMax f xs with
    | none => some ([], x, [])
    | some (l, p, r) =>
      if f x < f p then some (x :: l, p, r) else some ([], x, l ++ p :: r)

lemma splitAtMax_none {f : QPt → ℚ} :
    ∀ {l : List QPt}, splitAtMax f l = none → l = [] := by
  intro l
  cases l with
  | nil => intro; rfl
  | cons x xs =>
    intro h
    rw [splitAtMax] at h
    rcases hxs : splitAtMax f xs with _ | ⟨l2, p2, r2⟩ <;> rw [hxs] at h
    · simp at h
    · dsimp only at h
      split at h <;> simp at h

lemma splitAtMax_eq {f : QPt → ℚ} :
    ∀ {l : List QPt} {pre : List QPt} {p : QPt} {post : List QPt},
      splitAtMax f l = some (pre, p, post) → l = pre ++ p :: post := by
  intro l
  induction l with
  | nil =>
    intro pre p post h
    simp [splitAtMax] at h
  | cons x xs ih =>
    intro pre p post h
    rw [splitAtMax] at h
    rcases hxs : splitAtMax f xs with _ | ⟨l2, p2, r2⟩ <;> rw [hxs] at h
    · have hnil : xs = [] := splitAtMax_none hxs
      dsimp only at h
      simp only [Option.some.injEq, Prod.mk.injEq] at h
      obtain ⟨h1, h2, h3⟩ := h
      subst h1
      subst h2
      subst h3
      rw [hnil]
      rfl
    · have hsplit := ih hxs
      dsimp only at h
      by_cases hcmp : f x < f p2
      · rw [if_pos hcmp] at h
        simp only [Option.some.injEq, Prod.mk.injEq] at h
        obtain ⟨h1, h2, h3⟩ := h
        subst h1
        subst h2
        subst h3
        rw [hsplit]
        rfl
      · rw [if_neg hcmp] at h
        simp only [Option.some.injEq, Prod.mk.injEq] at h
        obtain ⟨h1, h2, h3⟩ := h
        subst h1
        subst h2
        subst h3
        rw [hsplit]
        rfl

end Aruvi

namespace Aruvi

lemma splitAtMax_lengths {f : QPt → ℚ} {l pre : List QPt} {p : QPt} {post : List QPt}
    (h : splitAtMax f l = some (pre, p, post)) :
    pre.length + post.length + 1 = l.length := by
  rw [splitAtMax_eq h]
  simp
  omega

/-- Recursive core of Ramer–Douglas–Peucker on the open chain
`a, mid…, b`: returns the interior points kept.  If the farthest interior
point from the line `a`–`b` deviates more than `eps`, keep it and recurse
on the two sub-chains; otherwise drop all interior points.  This embeds
the `cv2.approxPolyDP` library call of `simplify_path`. -/
def rdpRec (eps : ℚ) (a b : QPt) (mid : List QPt) : List QPt :=
  match hs : splitAtMax (fun p => perpDist2 a b p) mid with
  | none => []
  | some (pre, p, post) =>
    if eps * eps < perpDist2 a b p then
      rdpRec eps a p pre ++ p :: rdpRec eps p b post
    else []
termination_by mid.length
decreasing_by
  · have := splitAtMax_lengths hs
    omega
  · have := splitAtMax_lengths hs
    omega

/-- Ramer–Douglas–Peucker on an open polyline: both end points are always
kept. -/
def rdpOpen (eps : ℚ) : List QPt → List QPt
  | [] => []
  | [p] => [p]
  | a :: c :: rest =>
    a :: (rdpRec eps a ((c :: rest).getLast (by simp)) ((c :: rest).dropLast)
      ++ [(c :: rest).getLast (by simp)])

/-- Ramer–Douglas–Peucker on a closed polyline: split the cycle at the
vertex farthest from the start vertex into two open chains and simplify
each (the closed mode of `cv2.approxPolyDP`). -/
def rdpClosed (eps : ℚ) : List QPt → List QPt
  | [] => []
  | [p] => [p]
  | a :: c :: rest =>
    match splitAtMax (fun p => dist2 a p) (c :: rest) with
    | none => [a]
    | some (pre, p, post) =>
      rdpOpen eps (a :: pre ++ [p]) ++ ((rdpOpen eps (p :: post ++ [a])).drop 1).dropLast

end Aruvi

namespace Aruvi

/-- The Path Simplifier `simplify_path` (`main.py` lines 179–197): paths
of fewer than 3 points pass through unchanged; otherwise the path is
treated as closed when its first and last points are less than 5 apart
(`‖p₀ - pₙ‖ < 5`, i.e. squared distance < 25) and handed to
Ramer–Douglas–Peucker (`cv2.approxPolyDP`); the output array is
floating point (`astype(np.float32)`). -/
def simplify_path (path : NPath) (tolerance : ℚ := 1 / 2) : NPath :=
  if path.pts.length < 3 then path
  else if dist2 path.pts.headI path.pts.getLastI < 25 then
    ⟨rdpClosed tolerance path.pts, true⟩
  else ⟨rdpOpen tolerance path.pts, true⟩

lemma rdpRec_length (eps : ℚ) :
    ∀ (n : ℕ) (a b : QPt) (mid : List QPt), mid.length ≤ n →
      (rdpRec eps a b mid).length ≤ mid.length := by
  intro n
  induction n with
  | zero =>
    intro a b mid h
    have hnil : mid = [] := by
      cases mid with
      | nil => rfl
      | cons x xs => simp at h
    subst hnil
    rw [rdpRec]
    simp [splitAtMax]
  | succ n ih =>
    intro a b mid h
    rw [rdpRec]
    split
    · simp
    · rename_i pre p post hs
      have hl := splitAtMax_lengths hs
      split
      · have h1 := ih a p pre (by omega)
        have h2 := ih p b post (by omega)
        simp only [List.length_append, List.length_cons]
        omega
      · simp

end Aruvi

namespace Aruvi

lemma rdpOpen_length (eps : ℚ) (pts : List QPt) :
    (rdpOpen eps pts).length ≤ pts.length := by
  match pts with
  | [] => simp [rdpOpen]
  | [p] => simp [rdpOpen]
  | a :: c :: rest =>
    rw [rdpOpen]
    have h := rdpRec_length eps ((c :: rest).dropLast).length a
      ((c :: rest).getLast (by simp)) ((c :: rest).dropLast) (le_refl _)
    simp only [List.length_cons, List.length_append, List.length_dropLast,
      List.length_nil] at h ⊢
    omega

lemma rdpOpen_head (eps : ℚ) (pts : List QPt) :
    (rdpOpen eps pts).head? = pts.head? := by
  match pts with
  | [] => rfl
  | [p] => rfl
  | a :: c :: rest => rfl

lemma rdpOpen_getLast (eps : ℚ) (pts : List QPt) :
    (rdpOpen eps pts).getLast? = pts.getLast? := by
  match pts with
  | [] => rfl
  | [p] => rfl
  | a :: c :: rest =>
    rw [rdpOpen]
    have hgen : ∀ (x : QPt) (l : List QPt) (y : QPt),
        (x :: (l ++ [y])).getLast? = some y := by
      intro x l y
      rw [show x :: (l ++ [y]) = (x :: l) ++ [y] from rfl, List.getLast?_concat]
    rw [hgen]
    rw [List.getLast?_cons_cons]
    rw [List.getLast?_eq_getLast_of_ne_nil (List.cons_ne_nil c rest)]

lemma rdpClosed_length (eps : ℚ) (pts : List QPt) :
    (rdpClosed eps pts).length ≤ pts.length := by
  match pts with
  | [] => simp [rdpClosed]
  | [p] => simp [rdpClosed]
  | a :: c :: rest =>
    rw [rdpClosed]
    split
    · simp
    · rename_i pre p post hs
      have hl := splitAtMax_lengths hs
      have h1 := rdpOpen_length eps (a :: pre ++ [p])
      have h2 := rdpOpen_length eps (p :: post ++ [a])
      simp only [List.length_append, List.length_cons, List.length_nil,
        List.length_dropLast, List.length_drop] at h1 h2 hl ⊢
      omega

/-- C5: the Path Simplifier never increases the point count; an open
input (first and last points at squared distance at least 25, i.e. not
within the closed-path threshold 5) keeps its first and last points
exactly; and any path of fewer than 3 points is returned unchanged. -/
theorem c5_simplify_length_endpoints (path : NPath) (tol : ℚ) :
    ((simplify_path path tol).pts.length ≤ path.pts.length) ∧
    (¬ dist2 path.pts.headI path.pts.getLastI < 25 →
      (simplify_path path tol).pts.head? = path.pts.head? ∧
      (simplify_path path tol).pts.getLast? = path.pts.getLast?) ∧
    (path.pts.length < 3 → simplify_path path tol = path) := by
  unfold simplify_path
  by_cases h3 : path.pts.length < 3
  · rw [if_pos h3]
    exact ⟨le_refl _, fun _ => ⟨rfl, rfl⟩, fun _ => rfl⟩
  · rw [if_neg h3]
    by_cases hc : dist2 path.pts.headI path.pts.getLastI < 25
    · rw [if_pos hc]
      exact ⟨rdpClosed_length tol path.pts, fun hopen => absurd hc hopen,
        fun hlen => absurd hlen h3⟩
    · rw [if_neg hc]
      exact ⟨rdpOpen_length tol path.pts,
        fun _ => ⟨rdpOpen_head tol path.pts, rdpOpen_getLast tol path.pts⟩,
        fun hlen => absurd hlen h3⟩

end Aruvi

namespace Aruvi

/-- Removal of consecutive duplicate points (`main.py` lines 206–210):
point `i` is kept iff `i = 0` or it differs from point `i - 1` of the
original sequence. -/
def dedupConsec : List QPt → List QPt
  | [] => []
  | a :: rest =>
    a :: (rest.zip (a :: rest)).filterMap fun cp =>
      if cp.1 ≠ cp.2 then some cp.1 else none

/-- Result of a successful `scipy.interpolate.splprep` fit: the
parameter range `[umin, umax]` returned as `u` and the spline evaluator
`splev`.  The fit itself is outside the repository, so the pipeline is
parametrised over a `fit` function returning `Option SplineFit` (`none`
models the exception the source catches). -/
structure SplineFit where
  umin : ℚ
  umax : ℚ
  eval : ℚ → QPt

/-- `np.linspace a b n`: `n` evenly spaced samples from `a` to `b`
inclusive. -/
def linspace (a b : ℚ) (n : ℕ) : List ℚ :=
  if n = 0 then []
  else if n = 1 then [a]
  else (List.range n).map fun (i : ℕ) => a + (b - a) * (i : ℚ) / ((n : ℚ) - 1)

/-- Moving-average fallback smoothing (`main.py` lines 225–229):
`np.convolve` with a uniform window in `valid` mode, applied to each
coordinate. -/
def movingAverage (w : ℕ) (pts : List QPt) : List QPt :=
  (List.range (pts.length + 1 - w)).map fun i =>
    ((((pts.drop i).take w).map Prod.fst).sum / (w : ℚ),
     (((pts.drop i).take w).map Prod.snd).sum / (w : ℚ))

/-- The Path Smoother `smooth_path` (`main.py` lines 199–231): paths of
fewer than 4 points, or with fewer than 4 unique points after removing
consecutive duplicates, are returned unchanged; otherwise a cubic spline
is fit through the unique points with smoothing `s = smoothing·len(path)`
and resampled at `num_points` evenly spaced parameter values; if the fit
fails, moving-average smoothing with window `min(5, n//2)` (`n` the
number of unique points) is applied instead.  Both the spline and the
fallback produce floating-point output. -/
def smooth_path (fit : ℚ → List QPt → Option SplineFit) (smoothing : ℚ := 1 / 500)
    (num_points : ℕ := 200) (path : NPath) : NPath :=
  if path.pts.length < 4 then path
  else if (dedupConsec path.pts).length < 4 then path
  else
    match fit (smoothing * (path.pts.length : ℚ)) (dedupConsec path.pts) with
    | some sp => ⟨(linspace sp.umin sp.umax num_points).map sp.eval, true⟩
    | none =>
      if 1 < min 5 ((dedupConsec path.pts).length / 2) then
        ⟨movingAverage (min 5 ((dedupConsec path.pts).length / 2)) (dedupConsec path.pts),
          true⟩
      else path

end Aruvi

namespace Aruvi

lemma linspace_length (a b : ℚ) (n : ℕ) : (linspace a b n).length = n := by
  unfold linspace
  split
  · simp only [List.length_nil]
    omega
  · split
    · simp only [List.length_cons, List.length_nil]
      omega
    · simp

lemma dedupConsec_length_le (l : List QPt) : (dedupConsec l).length ≤ l.length := by
  cases l with
  | nil => simp [dedupConsec]
  | cons a rest =>
    rw [dedupConsec]
    simp only [List.length_cons, Nat.add_le_add_iff_right]
    refine le_trans (List.length_filterMap_le _ _) ?_
    rw [List.length_zip]
    exact le_trans (min_le_left _ _) (le_refl _)

/-- C6 counterexample: an integer-coordinate two-point path is returned
by the Path Smoother unchanged, still with integer coordinates. -/
theorem c6_smoother_integer_output_counterexample :
    (smooth_path (fun _ _ => none) (1 / 500) 200
      ⟨[(0, 0), (1, 1)], false⟩).isFloat = false := by
  rfl

/-- C6 (amended): whenever the path reaches the spline/fallback stage
(at least 4 points and at least 4 unique points after consecutive
duplicate removal) the output has floating-point coordinates; a path
stopped by either early exit is returned unchanged, keeping its input
coordinate kind. -/
theorem c6_smoother_float_output_amended (fit : ℚ → List QPt → Option SplineFit)
    (sm : ℚ) (n : ℕ) (p : NPath) :
    (4 ≤ p.pts.length → 4 ≤ (dedupConsec p.pts).length →
      (smooth_path fit sm n p).isFloat = true) ∧
    (p.pts.length < 4 ∨ (dedupConsec p.pts).length < 4 →
      smooth_path fit sm n p = p) := by
  unfold smooth_path
  constructor
  · intro h4 hu4
    rw [if_neg (by omega), if_neg (by omega)]
    rcases hfit : fit (sm * (p.pts.length : ℚ)) (dedupConsec p.pts) with _ | sp
    · have hw : 1 < min 5 ((dedupConsec p.pts).length / 2) := by omega
      simp only [hfit, if_pos hw]
    · simp only [hfit]
  · intro hlt
    by_cases h4 : p.pts.length < 4
    · rw [if_pos h4]
    · rw [if_neg h4]
      have hu : (dedupConsec p.pts).length < 4 := by
        rcases hlt with h | h
        · omega
        · exact h
      rw [if_pos hu]

/-- C7: when the path has at least 4 points, at least 4 unique points
remain after removing consecutive duplicates, and the spline fit
succeeds, the smoothed output is exactly the spline resampled at
`num_points` evenly spaced parameter values, hence has exactly
`num_points` points; when fewer than 4 unique points remain the path is
returned unchanged. -/
theorem c7_spline_resample_count (fit : ℚ → List QPt → Option SplineFit)
    (sm : ℚ) (n : ℕ) (p : NPath) :
    (∀ sp : SplineFit, 4 ≤ p.pts.length → 4 ≤ (dedupConsec p.pts).length →
      fit (sm * (p.pts.length : ℚ)) (dedupConsec p.pts) = some sp →
      (smooth_path fit sm n p).pts = (linspace sp.umin sp.umax n).map sp.eval ∧
      (smooth_path fit sm n p).pts.length = n) ∧
    ((dedupConsec p.pts).length < 4 → smooth_path fit sm n p = p) := by
  constructor
  · intro sp h4 hu4 hfit
    unfold smooth_path
    rw [if_neg (by omega), if_neg (by omega)]
    simp only [hfit]
    exact ⟨by trivial, by simp [linspace_length]⟩
  · intro hu
    unfold smooth_path
    by_cases h4 : p.pts.length < 4
    · rw [if_pos h4]
    · rw [if_neg h4, if_pos hu]

end Aruvi

namespace Aruvi

/-- A decoded raster image (the array `cv2.imdecode` returns): spatial
extent plus pixel data. -/
structure Image where
  w : ℕ
  h : ℕ
  data : ℤ → ℤ → ℕ

/-- The third-party vision/interpolation primitives the pipeline calls
but whose implementations live outside the repository; every theorem
quantifies over them.  `preprocessCore` stands for the
bilateral-filter/adaptive-threshold/morphology/component-filter chain of
`preprocess_image`, `thin` for `skimage.morphology.thin`,
`findContours` for `skimage.measure.find_contours` (contours in
`(row, col)` order), `fit` for `scipy.interpolate.splprep`. -/
structure CvOps where
  preprocessCore : Image → Grid
  thin : Grid → Grid
  findContours : Grid → List (List QPt)
  fit : ℚ → List QPt → Option SplineFit

/-- Failure of a cv2 call inside the pipeline. -/
inductive PipelineError where
  | emptyInput
  deriving DecidableEq

/-- `preprocess_image` (`main.py` lines 35–71): the cv2 calls
(`cvtColor`/`bilateralFilter`) raise on an image of zero spatial extent,
modelled as an explicit error; otherwise the preprocessing chain
produces the cleaned binary mask. -/
def preprocess_image (ops : CvOps) (img : Image) : Except PipelineError Grid :=
  if img.w = 0 ∨ img.h = 0 then Except.error PipelineError.emptyInput
  else Except.ok (ops.preprocessCore img)

/-- `get_skeleton` (`main.py` lines 73–81): Zhang–Suen thinning of the
binary mask, via the library primitive. -/
def get_skeleton (ops : CvOps) (bw : Grid) : Grid :=
  ops.thin bw

/-- The pipeline `image_to_svg` (`main.py` lines 316–343): preprocess,
skeletonise, extract raw paths, simplify each with tolerance 0.8, smooth
each; returns the processed paths (the content serialised into
`paths_svg`) together with `len(raw_paths)`. -/
def image_to_svg (ops : CvOps) (smoothing : ℚ) (num_points : ℕ) (img : Image) :
    Except PipelineError (List NPath × ℕ) :=
  match preprocess_image ops img with
  | Except.error e => Except.error e
  | Except.ok bw =>
    let skel := get_skeleton ops bw
    let raw := extract_paths_from_skeleton skel (ops.findContours skel)
    let simplified := raw.map fun p => simplify_path p (4 / 5)
    let smoothed := simplified.map fun p => smooth_path ops.fit smoothing num_points p
    Except.ok (smoothed, raw.length)

/-- Outcome of one request to the `/convert` endpoint. -/
inductive ReqResult where
  | badRequest
  | serverError
  | success (paths : List NPath) (count : ℕ)
  deriving DecidableEq

/-- The `/convert` handler `convert_image_to_svg` (`main.py`
lines 361–418).  The content-type validation (line 381) sits outside
the `try` block and rejects with HTTP 400 before anything else runs.
Everything after it happens inside the `try`: a body that does not
decode (`cv2.imdecode` returns `None`) raises `HTTPException(400)`, but
`HTTPException` is an `Exception`, so the `except Exception` clause
(line 417) catches it — like every other exception escaping the
pipeline — and re-raises it as the generic HTTP 500; a completed
pipeline run is returned as a success response. -/
def convert_image_to_svg (ops : CvOps) (smoothing : ℚ) (num_points : ℕ)
    (content_type_image : Bool) (decoded : Option Image) : ReqResult :=
  match content_type_image, decoded with
  | false, _ => ReqResult.badRequest
  | true, none => ReqResult.serverError
  | true, some img =>
    match image_to_svg ops smoothing num_points img with
    | Except.error _ => ReqResult.serverError
    | Except.ok (paths, n) => ReqResult.success paths n

/-- Concrete trivial instantiations of the library primitives, for
evaluating the models on concrete inputs. -/
def trivialOps : CvOps :=
  ⟨fun _ => ⟨0, 0, fun _ _ => 0⟩, fun g => g, fun _ => [], fun _ _ => none⟩

/-- The degenerate decoded image of zero spatial extent. -/
def emptyImage : Image :=
  ⟨0, 0, fun _ _ => 0⟩

/-- C8 counterexample: a decoded grid of zero spatial extent is not
rejected at the boundary — the handler enters the pipeline with it, the
failure escapes to the catch-all `except` clause and the request ends
as a generic processing error (HTTP 500), not as an HTTP 400 boundary
rejection. -/
theorem c8_zero_extent_not_boundary_rejected :
    convert_image_to_svg trivialOps (1 / 500) 200 true (some emptyImage)
      = ReqResult.serverError ∧
    convert_image_to_svg trivialOps (1 / 500) 200 true (some emptyImage)
      ≠ ReqResult.badRequest := by
  refine ⟨rfl, by decide⟩

/-- C8 (amended): an empty or zero-extent decoded grid is not rejected
at the boundary with a dedicated invalid-image error; it enters the
pipeline, whose failure is caught and surfaced as the generic processing
error (HTTP 500).  A body that fails to decode also ends as HTTP 500,
because the HTTP 400 raised for it sits inside the `try` block and the
catch-all `except` clause converts it.  The only rejection issued
before the pipeline runs is the content-type validation (HTTP 400). -/
theorem c8_error_routing_amended (ops : CvOps) (sm : ℚ) (n : ℕ) (img : Image)
    (hz : img.w = 0 ∨ img.h = 0) :
    convert_image_to_svg ops sm n true (some img) = ReqResult.serverError ∧
    convert_image_to_svg ops sm n true none = ReqResult.serverError ∧
    ∀ decoded : Option Image,
      convert_image_to_svg ops sm n false decoded = ReqResult.badRequest := by
  refine ⟨?_, rfl, fun decoded => rfl⟩
  unfold convert_image_to_svg image_to_svg preprocess_image
  dsimp only
  rw [if_pos hz]

/-- C9: a spline-fit failure on a path with at least 4 unique points is
recovered locally by moving-average smoothing with window
`min(5, n//2)`; the smoothing stage produces one output path per raw
path (`paths_count` equals the number of processed paths), so no
per-path failure aborts the others; and every request whose input
decodes to a non-degenerate image succeeds. -/
theorem c9_local_recovery_no_abort :
    (∀ (fit : ℚ → List QPt → Option SplineFit) (sm : ℚ) (n : ℕ) (p : NPath),
      4 ≤ p.pts.length → 4 ≤ (dedupConsec p.pts).length →
      fit (sm * (p.pts.length : ℚ)) (dedupConsec p.pts) = none →
      smooth_path fit sm n p =
        ⟨movingAverage (min 5 ((dedupConsec p.pts).length / 2)) (dedupConsec p.pts),
          true⟩) ∧
    (∀ (ops : CvOps) (sm : ℚ) (n : ℕ) (img : Image) (paths : List NPath) (c : ℕ),
      image_to_svg ops sm n img = Except.ok (paths, c) → paths.length = c) ∧
    (∀ (ops : CvOps) (sm : ℚ) (n : ℕ) (img : Image), img.w ≠ 0 → img.h ≠ 0 →
      ∃ paths c, convert_image_to_svg ops sm n true (some img)
        = ReqResult.success paths c) := by
  refine ⟨?_, ?_, ?_⟩
  · intro fit sm n p h4 hu4 hfit
    unfold smooth_path
    rw [if_neg (by omega), if_neg (by omega)]
    simp only [hfit]
    rw [if_pos (by omega)]
  · intro ops sm n img paths c h
    unfold image_to_svg at h
    rcases hpre : preprocess_image ops img with e | bw
    · rw [hpre] at h
      simp at h
    · rw [hpre] at h
      simp only [Except.ok.injEq, Prod.mk.injEq] at h
      obtain ⟨h1, h2⟩ := h
      rw [← h1, ← h2]
      simp
  · intro ops sm n img hw hh
    unfold convert_image_to_svg image_to_svg preprocess_image
    dsimp only
    rw [if_neg (by tauto)]
    exact ⟨_, _, rfl⟩

end Aruvi

namespace Aruvi

/-- Witness for C2 at a concrete interior pixel: the centre of the plus
skeleton is reported as a junction. -/
theorem c2_classifier_interior_raster_order_witness :
    (3, 3) ∈ (find_endpoints_junctions plusGrid).2 :=
  (((c2_classifier_interior_raster_order plusGrid).1 3 3 (by decide) (by decide)
    (by decide) (by decide)).2).mpr ⟨by decide, by decide⟩

/-- Witness for C3 at a concrete extraction: the seed-traced path of the
plus skeleton has at least 10 points. -/
theorem c3_retained_path_min_length_witness :
    10 ≤ (NPath.mk (plusPath.map toQ) false).pts.length :=
  (c3_retained_path_min_length plusGrid [] ⟨plusPath.map toQ, false⟩ (by decide)).1
    (by decide)

/-- Witness for C5 at a concrete open two-point path. -/
theorem c5_simplify_length_endpoints_witness :
    (simplify_path ⟨[((0 : ℚ), (0 : ℚ)), (9, 9)], false⟩ (4 / 5)).pts.length ≤ 2 ∧
    (simplify_path ⟨[((0 : ℚ), (0 : ℚ)), (9, 9)], false⟩ (4 / 5)).pts.head?
      = some (0, 0) ∧
    simplify_path ⟨[((0 : ℚ), (0 : ℚ)), (9, 9)], false⟩ (4 / 5)
      = ⟨[((0 : ℚ), (0 : ℚ)), (9, 9)], false⟩ := by
  have h := c5_simplify_length_endpoints ⟨[((0 : ℚ), (0 : ℚ)), (9, 9)], false⟩ (4 / 5)
  have hopen : ¬ dist2 (NPath.mk [((0 : ℚ), (0 : ℚ)), (9, 9)] false).pts.headI
      (NPath.mk [((0 : ℚ), (0 : ℚ)), (9, 9)] false).pts.getLastI < 25 := by
    norm_num [dist2, List.headI, List.getLastI]
  exact ⟨h.1, ((h.2.1 hopen).1).trans (by decide), h.2.2 (by decide)⟩

/-- Witness for C6: a 4-point integer path that reaches the fallback is
emitted as floating point, and a 2-point path is returned unchanged. -/
theorem c6_smoother_float_output_amended_witness :
    (smooth_path (fun _ _ => none) (1 / 500) 200
      ⟨[((0 : ℚ), (0 : ℚ)), (1, 0), (2, 0), (3, 0)], false⟩).isFloat = true ∧
    smooth_path (fun _ _ => none) (1 / 500) 200 ⟨[((0 : ℚ), (0 : ℚ)), (1, 1)], false⟩
      = ⟨[((0 : ℚ), (0 : ℚ)), (1, 1)], false⟩ :=
  ⟨(c6_smoother_float_output_amended (fun _ _ => none) (1 / 500) 200
      ⟨[((0 : ℚ), (0 : ℚ)), (1, 0), (2, 0), (3, 0)], false⟩).1 (by decide) (by decide),
   (c6_smoother_float_output_amended (fun _ _ => none) (1 / 500) 200
      ⟨[((0 : ℚ), (0 : ℚ)), (1, 1)], false⟩).2 (Or.inl (by decide))⟩

/-- Witness for C7: a successful fit on a concrete 4-point path is
resampled to exactly `num_points = 7` points. -/
theorem c7_spline_resample_count_witness :
    (smooth_path (fun _ _ => some (SplineFit.mk 0 1 fun t => (t, t))) (1 / 500) 7
      ⟨[((0 : ℚ), (0 : ℚ)), (1, 0), (2, 0), (3, 0)], false⟩).pts.length = 7 :=
  ((c7_spline_resample_count (fun _ _ => some (SplineFit.mk 0 1 fun t => (t, t)))
    (1 / 500) 7 ⟨[((0 : ℚ), (0 : ℚ)), (1, 0), (2, 0), (3, 0)], false⟩).1
    (SplineFit.mk 0 1 fun t => (t, t)) (by decide) (by decide) rfl).2

/-- Witness for C8 at the concrete zero-extent image, the concrete
undecodable body, and a concrete content-type rejection. -/
theorem c8_error_routing_amended_witness :
    convert_image_to_svg trivialOps (1 / 500) 7 true (some emptyImage)
      = ReqResult.serverError ∧
    convert_image_to_svg trivialOps (1 / 500) 7 true none = ReqResult.serverError ∧
    convert_image_to_svg trivialOps (1 / 500) 7 false none = ReqResult.badRequest :=
  ⟨(c8_error_routing_amended trivialOps (1 / 500) 7 emptyImage (Or.inl rfl)).1,
   (c8_error_routing_amended trivialOps (1 / 500) 7 emptyImage (Or.inl rfl)).2.1,
   (c8_error_routing_amended trivialOps (1 / 500) 7 emptyImage (Or.inl rfl)).2.2 none⟩

/-- Witness for C9: the concrete fallback result, the processed-path
count of a concrete pipeline run, and a concrete successful request. -/
theorem c9_local_recovery_no_abort_witness :
    smooth_path (fun _ _ => none) (1 / 500) 200
      ⟨[((0 : ℚ), (0 : ℚ)), (1, 0), (2, 0), (3, 0)], false⟩
      = ⟨movingAverage 2 [((0 : ℚ), (0 : ℚ)), (1, 0), (2, 0), (3, 0)], true⟩ ∧
    ([] : List NPath).length = 0 ∧
    ∃ paths c, convert_image_to_svg trivialOps (1 / 500) 200 true
      (some ⟨1, 1, fun _ _ => 0⟩) = ReqResult.success paths c :=
  ⟨c9_local_recovery_no_abort.1 (fun _ _ => none) (1 / 500) 200
      ⟨[((0 : ℚ), (0 : ℚ)), (1, 0), (2, 0), (3, 0)], false⟩ (by decide) (by decide) rfl,
   c9_local_recovery_no_abort.2.1 trivialOps (1 / 500) 200 ⟨1, 1, fun _ _ => 0⟩ [] 0
      rfl,
   c9_local_recovery_no_abort.2.2 trivialOps (1 / 500) 200 ⟨1, 1, fun _ _ => 0⟩
      (by decide) (by decide)⟩

/-- Witness for C10 at a concrete traced path and point. -/
theorem c10_seed_paths_disjoint_on_skeleton_witness :
    (0 ≤ (3 : ℤ) ∧ (3 : ℤ) < (plusGrid.w : ℤ) ∧ 0 ≤ (3 : ℤ) ∧
      (3 : ℤ) < (plusGrid.h : ℤ)) ∧ plusGrid.pix 3 3 ≠ 0 :=
  (c10_seed_paths_disjoint_on_skeleton plusGrid).2 plusPath (by decide) (3, 3) (by decide)

end Aruvi
